import Mathlib

/-!
# Verification of Project Euler 100 "Arranged Probability" solver

Shallow embedding of `src/main.py`.  The program searches for the first disc
arrangement `(total, blue)` with `total > n_min` such that drawing two blue
discs without replacement has probability exactly one half.  It iterates
solutions of the Pell equation `r^2 - 2 s^2 = ±1` starting from `(1, 1)` with
the recurrence `(r, s) := (r + 2 s, r + s)`, derives Euclid parameters
`p = r + s`, `q = s`, triple legs `a = (p - q) (p + q)`, `b = 2 p q`, candidate
total `n = max a b`, and at the first `n > n_min` returns
`(n, (1 + sqrt (1 + 2 a b)) / 2)`.
-/

namespace Euler100

/-- One step of the convergent recurrence from `src/main.py` line 186:
`r, s = r + 2*s, r + s`. -/
def pellStep (rs : ℕ × ℕ) : ℕ × ℕ :=
  (rs.1 + 2 * rs.2, rs.1 + rs.2)

/-- The Pell state after `i` loop iterations, seeded with `(r, s) = (1, 1)`
(`src/main.py` lines 168-169). -/
def pellState (i : ℕ) : ℕ × ℕ :=
  pellStep^[i] (1, 1)

/-- Leg `a = (p-q)*(p+q)` of the generated Pythagorean triple, with
`p = r + s`, `q = s` (`src/main.py` lines 173-177). -/
def legA (rs : ℕ × ℕ) : ℕ :=
  (rs.1 + rs.2 - rs.2) * (rs.1 + rs.2 + rs.2)

/-- Leg `b = 2*p*q` of the generated Pythagorean triple, with `p = r + s`,
`q = s` (`src/main.py` line 178). -/
def legB (rs : ℕ × ℕ) : ℕ :=
  2 * (rs.1 + rs.2) * rs.2

/-- Candidate total `n = max(a, b)` (`src/main.py` line 181). -/
def candN (rs : ℕ × ℕ) : ℕ :=
  max (legA rs) (legB rs)

/-- Hypotenuse `p^2 + q^2` of the generated triple; `1 + 2*a*b` is always its
square, so the float `sqrt` of the source extracts exactly this value. -/
def hypC (rs : ℕ × ℕ) : ℕ :=
  (rs.1 + rs.2) * (rs.1 + rs.2) + rs.2 * rs.2

/-- Blue disc count `x = int((1 + sqrt(1 + 2*a*b)) / 2)` (`src/main.py` line
183), with `math.sqrt` modelled as the exact integer square root.  The
radicand is proved below to be the odd perfect square `hypC ^ 2` in every
reachable state, and the IEEE-754 double `math.sqrt` returns exactly `hypC`
whenever `hypC < 2^53` (the root is representable and the correctly rounded
square root of the rounded radicand lands within half an ulp of it) — this
covers the first 20 loop states, i.e. every bound below 1235216565974041.
Beyond that the model is idealized: the double square root returns
`hypC ± 1` (the root is an odd integer above `2^53`, hence not
representable), and once the radicand exceeds `2^1024` the source raises
`OverflowError` instead of returning; both divergences are recorded in the
evaluation theorems at such bounds below. -/
def blueX (rs : ℕ × ℕ) : ℕ :=
  (1 + Nat.sqrt (1 + 2 * legA rs * legB rs)) / 2

/-- The Pell invariant `r^2 - 2 s^2 = ±1` stated over ℕ:
either `r^2 = 2 s^2 + 1` or `r^2 + 1 = 2 s^2`. -/
def Inv (rs : ℕ × ℕ) : Prop :=
  rs.1 * rs.1 = 2 * (rs.2 * rs.2) + 1 ∨ rs.1 * rs.1 + 1 = 2 * (rs.2 * rs.2)

/-- One step of the combined recurrence on solutions `(w, z)` of the negative
Pell equation `w^2 + 1 = 2 z^2`: `(w, z) := (3 w + 4 z, 2 w + 3 z)`.  Used to
show the program enumerates every valid arrangement total. -/
def negPellStep (wz : ℕ × ℕ) : ℕ × ℕ :=
  (3 * wz.1 + 4 * wz.2, 2 * wz.1 + 3 * wz.2)

/-- All positive solutions of `w^2 + 1 = 2 z^2` in increasing order,
starting from the trivial solution `(1, 1)`. -/
def negPell (i : ℕ) : ℕ × ℕ :=
  negPellStep^[i] (1, 1)

/-- Both components of every reachable Pell state are at least 1, and the
second component grows without bound.  (Prop-valued definition used to build
the search index below.) -/
def pellState_ge : ∀ i : ℕ, 1 ≤ (pellState i).1 ∧ i + 1 ≤ (pellState i).2 := by
  intro i
  induction i with
  | zero => exact ⟨le_refl 1, le_refl 1⟩
  | succ k ih =>
      have hstep : pellState (k + 1) = pellStep (pellState k) :=
        Function.iterate_succ_apply' pellStep k (1, 1)
      rw [hstep]
      unfold pellStep
      exact ⟨by omega, by omega⟩

/-- The candidate total eventually exceeds any bound: at index `b` it is
already larger than `b`.  (Prop-valued definition used by `firstIdx`.) -/
def candN_unbounded (b : ℕ) : ∃ i, b < candN (pellState i) := by
  refine ⟨b, ?_⟩
  have h := pellState_ge b
  have hb : legB (pellState b) ≤ candN (pellState b) := le_max_right _ _
  unfold legB at hb
  nlinarith [hb, h.1, h.2]

/-- Index of the first loop iteration whose candidate total exceeds the bound;
this is the iteration at which the `while` loop of `src/main.py` line 182
returns. -/
def firstIdx (n_min : ℕ) : ℕ :=
  Nat.find (candN_unbounded n_min)

/-- `main(n_min)` from `src/main.py` lines 171-184: run the loop until
`n > n_min` and return `(n, x)`. -/
def main (n_min : ℕ) : ℕ × ℕ :=
  (candN (pellState (firstIdx n_min)), blueX (pellState (firstIdx n_min)))

/-- The argument check `assert type(n_min) == int and n_min > 0`
(`src/main.py` line 40), modelled over the integers: a non-positive (or, via
the ambient type, non-integral) argument fails the assertion and no result is
produced; a positive one runs the search.  This models the guard only: for
positive bounds large enough that the radicand `1 + 2*a*b` of the returning
iteration exceeds the double range `2^1024` (bounds around `10^154` and up),
the source additionally raises `OverflowError` inside `math.sqrt`, a
float-level failure outside this integer model (recorded in the evaluation
theorem at such a bound below). -/
def mainChecked (n_min : ℤ) : Option (ℕ × ℕ) :=
  if 0 < n_min then some (main n_min.toNat) else none

/-! ## Basic unfolding lemmas -/

theorem pellState_succ (i : ℕ) : pellState (i + 1) = pellStep (pellState i) :=
  Function.iterate_succ_apply' pellStep i (1, 1)

theorem negPell_succ (i : ℕ) : negPell (i + 1) = negPellStep (negPell i) :=
  Function.iterate_succ_apply' negPellStep i (1, 1)

theorem legA_eq (rs : ℕ × ℕ) : legA rs = rs.1 * (rs.1 + 2 * rs.2) := by
  unfold legA
  rw [Nat.add_sub_cancel]
  ring

theorem legB_eq (rs : ℕ × ℕ) : legB rs = 2 * (rs.1 + rs.2) * rs.2 := rfl

/-! ## The Pell invariant and its consequences -/

/-- Every reachable state satisfies `r^2 - 2 s^2 = ±1`. -/
theorem inv_pellState : ∀ i : ℕ, Inv (pellState i) := by
  intro i
  induction i with
  | zero => exact Or.inr rfl
  | succ k ih =>
      rw [pellState_succ]
      unfold Inv at *
      simp only [pellStep]
      rcases ih with h | h
      · right
        zify at h ⊢
        linear_combination -h
      · left
        zify at h ⊢
        linear_combination -h

/-- In every Pell-invariant state the two triple legs differ by exactly 1. -/
theorem legs_diff (rs : ℕ × ℕ) (h : Inv rs) :
    legA rs = legB rs + 1 ∨ legB rs = legA rs + 1 := by
  obtain ⟨r, s⟩ := rs
  rw [legA_eq, legB_eq]
  unfold Inv at h
  simp only at h ⊢
  rcases h with h | h
  · left
    zify at h ⊢
    linear_combination h
  · right
    zify at h ⊢
    linear_combination -h

/-- Euclid's identity: the legs and `hypC` form a Pythagorean triple.  This is
a polynomial identity, independent of the invariant. -/
theorem euclid_identity (rs : ℕ × ℕ) :
    legA rs * legA rs + legB rs * legB rs = hypC rs * hypC rs := by
  obtain ⟨r, s⟩ := rs
  rw [legA_eq, legB_eq]
  unfold hypC
  simp only
  ring

/-- In every Pell-invariant state the radicand `1 + 2 a b` computed by the
source is exactly the perfect square `hypC ^ 2`. -/
theorem hypC_sq (rs : ℕ × ℕ) (h : Inv rs) :
    hypC rs * hypC rs = 1 + 2 * legA rs * legB rs := by
  have he := euclid_identity rs
  rcases legs_diff rs h with hd | hd
  · rw [← he, hd]; ring
  · rw [← he, hd]; ring

theorem mul_self_mod_two (x : ℕ) : x * x % 2 = x % 2 := by
  rw [Nat.mul_mod]
  rcases Nat.mod_two_eq_zero_or_one x with h | h <;> rw [h]

/-- In every Pell-invariant state `r` is odd. -/
theorem inv_fst_odd (rs : ℕ × ℕ) (h : Inv rs) : rs.1 % 2 = 1 := by
  have h1 := mul_self_mod_two rs.1
  have h2 := mul_self_mod_two rs.2
  unfold Inv at h
  rcases h with h | h <;> omega

/-- In every Pell-invariant state the hypotenuse is odd. -/
theorem hypC_odd (rs : ℕ × ℕ) (h : Inv rs) : hypC rs % 2 = 1 := by
  have h1 := mul_self_mod_two (rs.1 + rs.2)
  have h2 := mul_self_mod_two rs.2
  have h3 := inv_fst_odd rs h
  unfold hypC
  omega

/-- The blue count computed through the square root is exactly
`(1 + hypC) / 2`, and that division is exact. -/
theorem blueX_exact (rs : ℕ × ℕ) (h : Inv rs) : 2 * blueX rs = 1 + hypC rs := by
  unfold blueX
  rw [← hypC_sq rs h, Nat.sqrt_eq]
  have := hypC_odd rs h
  omega

/-- The product of the legs is `n * (n - 1)` for the candidate total
`n = max a b`. -/
theorem legs_prod (rs : ℕ × ℕ) (h : Inv rs) :
    legA rs * legB rs = candN rs * (candN rs - 1) := by
  unfold candN
  rcases legs_diff rs h with hd | hd
  · rw [Nat.max_eq_left (by omega), hd, Nat.add_sub_cancel]
  · rw [Nat.max_eq_right (by omega), hd, Nat.mul_comm, Nat.add_sub_cancel]

/-- Size facts: in a reachable state (`r, s ≥ 1`) the candidate total is at
least 4 and at least both legs. -/
theorem candN_ge_four (rs : ℕ × ℕ) (h1 : 1 ≤ rs.1) (h2 : 1 ≤ rs.2) :
    4 ≤ candN rs := by
  have hb : legB rs ≤ candN rs := le_max_right _ _
  rw [legB_eq] at hb
  nlinarith

/-- The central arithmetic fact: in every Pell-invariant state the returned
blue count satisfies the exact arrangement identity
`2 x (x - 1) = n (n - 1)`. -/
theorem blue_identity (rs : ℕ × ℕ) (h : Inv rs) :
    2 * blueX rs * (blueX rs - 1) = candN rs * (candN rs - 1) := by
  have hx := blueX_exact rs h
  have hc := hypC_sq rs h
  have hp := legs_prod rs h
  obtain ⟨k, hk⟩ : ∃ k, blueX rs = k + 1 := ⟨blueX rs - 1, by omega⟩
  rw [hk] at hx ⊢
  simp only [Nat.add_sub_cancel]
  rw [← hp]
  have hck : hypC rs = 2 * k + 1 := by omega
  rw [hck] at hc
  have e1 : (2 * k + 1) * (2 * k + 1) = 4 * (k * k) + 4 * k + 1 := by ring
  have e3 : 2 * legA rs * legB rs = 2 * (legA rs * legB rs) := by ring
  rw [e1, e3] at hc
  have e2 : 2 * (k + 1) * k = 2 * (k * k) + 2 * k := by ring
  rw [e2]
  omega

/-- The blue count is positive in every Pell-invariant state. -/
theorem blueX_pos (rs : ℕ × ℕ) (h : Inv rs) : 1 ≤ blueX rs := by
  have hx := blueX_exact rs h
  omega

/-- The blue count is strictly below the candidate total whenever the
candidate total is at least 2. -/
theorem blueX_lt_candN (rs : ℕ × ℕ) (h : Inv rs) (hn : 2 ≤ candN rs) :
    blueX rs < candN rs := by
  have hx := blueX_exact rs h
  have hc := hypC_sq rs h
  have hp := legs_prod rs h
  -- hypC^2 = 1 + 2 n (n-1) < (2n-1)^2, hence hypC ≤ 2n - 2
  have hlt : hypC rs < 2 * candN rs - 1 := by
    by_contra hge
    push_neg at hge
    have hsq : (2 * candN rs - 1) * (2 * candN rs - 1) ≤ hypC rs * hypC rs :=
      Nat.mul_le_mul hge hge
    obtain ⟨t, ht⟩ : ∃ t, candN rs = t + 2 := ⟨candN rs - 2, by omega⟩
    rw [Nat.mul_assoc, hp, ht] at hc
    have e1 : (2 * (t + 2) - 1) * (2 * (t + 2) - 1) = 4 * (t * t) + 12 * t + 9 := by
      rw [show 2 * (t + 2) - 1 = 2 * t + 3 from by omega]
      ring
    have e2 : (t + 2) * (t + 2 - 1) = t * t + 3 * t + 2 := by
      rw [show t + 2 - 1 = t + 1 from rfl]
      ring
    rw [ht, e1] at hsq
    rw [e2] at hc
    omega
  omega

/-- The candidate total strictly increases from one iteration to the next. -/
theorem candN_step_lt (i : ℕ) :
    candN (pellState i) < candN (pellState (i + 1)) := by
  have hge := pellState_ge i
  obtain ⟨hr, hs⟩ := hge
  have hub : candN (pellState i) ≤ legA (pellState i) + legB (pellState i) := by
    unfold candN
    omega
  have hnext : legA (pellStep (pellState i)) ≤ candN (pellState (i + 1)) := by
    rw [pellState_succ]
    exact le_max_left _ _
  rw [legA_eq, legB_eq] at hub
  rw [legA_eq] at hnext
  unfold pellStep at hnext
  simp only at hnext
  nlinarith [hub, hnext, hr, hs]

/-- The sequence of candidate totals is strictly monotone in the iteration
index. -/
theorem candN_strictMono : StrictMono (fun i => candN (pellState i)) :=
  strictMono_nat_of_lt_succ candN_step_lt

/-! ## Unfolding the search -/

/-- `main` returns the candidate pair of the first iteration index whose
candidate total exceeds the bound. -/
theorem main_eq_of (b n : ℕ) (h1 : b < candN (pellState n))
    (h2 : ∀ m, m < n → ¬ b < candN (pellState m)) :
    main b = (candN (pellState n), blueX (pellState n)) := by
  have hfind : firstIdx b = n := by
    unfold firstIdx
    exact (Nat.find_eq_iff (candN_unbounded b)).mpr ⟨h1, h2⟩
  unfold main
  rw [hfind]

/-- The returned total always exceeds the bound. -/
theorem main_fst_gt (b : ℕ) : b < (main b).1 :=
  Nat.find_spec (candN_unbounded b)

/-- No iteration before the returning one exceeds the bound. -/
theorem main_min (b : ℕ) : ∀ j, j < firstIdx b → candN (pellState j) ≤ b := by
  intro j hj
  have := Nat.find_min (candN_unbounded b) hj
  omega

/-! ## The program enumerates all valid totals -/

/-- Advancing the Pell state acts on `(a + b, hypC)` as one `negPellStep`.
A pure polynomial identity. -/
theorem step_negPell (rs : ℕ × ℕ) :
    (legA (pellStep rs) + legB (pellStep rs), hypC (pellStep rs)) =
      negPellStep (legA rs + legB rs, hypC rs) := by
  obtain ⟨r, s⟩ := rs
  rw [legA_eq, legB_eq, legA_eq, legB_eq]
  unfold pellStep hypC negPellStep
  simp only [Prod.mk.injEq]
  constructor <;> ring

/-- The pair `(a + b, hypC)` of the `i`-th Pell state is the `(i+1)`-st
solution of the negative Pell equation `w^2 + 1 = 2 z^2`. -/
theorem negPell_link (i : ℕ) :
    negPell (i + 1) = (legA (pellState i) + legB (pellState i), hypC (pellState i)) := by
  induction i with
  | zero => rfl
  | succ k ih =>
      rw [negPell_succ, ih, pellState_succ, step_negPell]

/-- `a + b + 1 = 2 n` for the candidate total `n = max a b`, since the legs
differ by one. -/
theorem legs_sum (i : ℕ) :
    legA (pellState i) + legB (pellState i) + 1 = 2 * candN (pellState i) := by
  have h := legs_diff (pellState i) (inv_pellState i)
  unfold candN
  rcases h with h | h
  · rw [Nat.max_eq_left (by omega)]
    omega
  · rw [Nat.max_eq_right (by omega)]
    omega

/-- Descent: every positive solution of `w^2 + 1 = 2 z^2` appears in the
`negPell` sequence.  This is the completeness half of the Pell theory, needed
for the minimality guarantee of the search. -/
theorem negPell_complete :
    ∀ z w : ℕ, 1 ≤ w → 1 ≤ z → w * w + 1 = 2 * (z * z) → ∃ i, negPell i = (w, z) := by
  intro z
  induction z using Nat.strong_induction_on with
  | _ z ih =>
    intro w hw hz heq
    rcases lt_or_ge z 5 with hz5 | hz5
    · -- small cases: z ∈ {1, 2, 3, 4}; only z = 1 (with w = 1) is a solution
      have hwb : w ≤ 2 * z := by nlinarith
      interval_cases z <;> interval_cases w <;> first
        | exact ⟨0, rfl⟩
        | omega
    · -- descent step: (w, z) comes from the smaller solution (3w - 4z, 3z - 2w)
      have hzw : z < w := by nlinarith
      have h3w : 4 * z + 1 ≤ 3 * w := by
        by_contra hcon
        push_neg at hcon
        have h' : 3 * w ≤ 4 * z := by omega
        have := Nat.mul_le_mul h' h'
        nlinarith
      have h2w : 2 * w + 1 ≤ 3 * z := by
        by_contra hcon
        push_neg at hcon
        have h' : 3 * z ≤ 2 * w := by omega
        have := Nat.mul_le_mul h' h'
        nlinarith
      obtain ⟨w', hw'⟩ : ∃ w', w' + 4 * z = 3 * w := ⟨3 * w - 4 * z, by omega⟩
      obtain ⟨z', hz'⟩ : ∃ z', z' + 2 * w = 3 * z := ⟨3 * z - 2 * w, by omega⟩
      have hw'1 : 1 ≤ w' := by omega
      have hz'1 : 1 ≤ z' := by omega
      have hz'lt : z' < z := by omega
      have heq' : w' * w' + 1 = 2 * (z' * z') := by
        have hA : (w' : ℤ) = 3 * (w : ℤ) - 4 * (z : ℤ) := by
          have := congrArg (Nat.cast (R := ℤ)) hw'
          push_cast at this
          linarith
        have hB : (z' : ℤ) = 3 * (z : ℤ) - 2 * (w : ℤ) := by
          have := congrArg (Nat.cast (R := ℤ)) hz'
          push_cast at this
          linarith
        have heqZ : (w : ℤ) * w + 1 = 2 * ((z : ℤ) * z) := by exact_mod_cast heq
        have : (w' : ℤ) * w' + 1 = 2 * ((z' : ℤ) * z') := by
          rw [hA, hB]
          linear_combination heqZ
        exact_mod_cast this
      obtain ⟨i, hi⟩ := ih z' hz'lt w' hw'1 hz'1 heq'
      refine ⟨i + 1, ?_⟩
      rw [negPell_succ, hi]
      unfold negPellStep
      simp only [Prod.mk.injEq]
      constructor <;> omega

/-- Every total `m ≥ 2` whose radicand `1 + 2 m (m-1)` is a perfect square is
one of the candidate totals generated by the loop. -/
theorem validTotal_mem (m z : ℕ) (hm : 2 ≤ m) (hz : z * z = 1 + 2 * m * (m - 1)) :
    ∃ j, candN (pellState j) = m := by
  have hz1 : 1 ≤ z := by
    rcases Nat.eq_zero_or_pos z with h0 | h1
    · rw [h0] at hz
      simp at hz
      omega
    · exact h1
  obtain ⟨w, hwdef⟩ : ∃ w, w + 1 = 2 * m := ⟨2 * m - 1, by omega⟩
  have hw1 : 1 ≤ w := by omega
  have hweq : w * w + 1 = 2 * (z * z) := by
    obtain ⟨t, ht⟩ : ∃ t, m = t + 2 := ⟨m - 2, by omega⟩
    have hwt : w = 2 * t + 3 := by omega
    subst ht
    subst hwt
    rw [show t + 2 - 1 = t + 1 from rfl] at hz
    have e1 : (2 * t + 3) * (2 * t + 3) = 4 * (t * t) + 12 * t + 9 := by ring
    have e2 : 2 * (t + 2) * (t + 1) = 2 * ((t + 2) * (t + 1)) := by ring
    have e3 : (t + 2) * (t + 1) = t * t + 3 * t + 2 := by ring
    rw [e2, e3] at hz
    omega
  obtain ⟨i, hi⟩ := negPell_complete z w hw1 hz1 hweq
  cases i with
  | zero =>
      exfalso
      have : (1, 1) = (w, z) := hi
      have hw' : w = 1 := by
        have := congrArg Prod.fst this
        simpa using this.symm
      omega
  | succ j =>
      refine ⟨j, ?_⟩
      rw [negPell_link j] at hi
      have hfst : legA (pellState j) + legB (pellState j) = w := by
        have := congrArg Prod.fst hi
        simpa using this
      have hsum := legs_sum j
      omega

/-! ## Concrete evaluations of the search -/

/-- Evaluation form of `main` avoiding `Nat.sqrt`: the blue count is
`(1 + hypC) / 2`. -/
theorem main_val (b n : ℕ) (h1 : b < candN (pellState n))
    (h2 : ∀ m, m < n → ¬ b < candN (pellState m)) :
    main b = (candN (pellState n), (1 + hypC (pellState n)) / 2) := by
  rw [main_eq_of b n h1 h2]
  have h := blueX_exact (pellState n) (inv_pellState n)
  simp only [Prod.mk.injEq, true_and]
  omega

theorem main_lt_four (b : ℕ) (hb1 : 1 ≤ b) (hb4 : b < 4) : main b = (4, 3) := by
  have h4 : candN (pellState 0) = 4 := by decide
  rw [main_val b 0 (by omega) (fun m hm => absurd hm (Nat.not_lt_zero m))]
  decide

theorem main_mid (b : ℕ) (hb4 : 4 ≤ b) (hb21 : b < 21) : main b = (21, 15) := by
  have h21 : candN (pellState 1) = 21 := by decide
  have h4 : candN (pellState 0) = 4 := by decide
  rw [main_val b 1 (by omega) ?_]
  · decide
  · intro m hm
    have hm0 : m = 0 := by omega
    rw [hm0, h4]
    omega

theorem main_at_21 : main 21 = (120, 85) := by
  rw [main_val 21 2 (by decide) (by decide)]
  decide

/-- The arrangement identity satisfied by every returned pair, over ℤ. -/
theorem main_identityZ (b : ℕ) :
    2 * ((main b).2 : ℤ) * (((main b).2 : ℤ) - 1) =
      ((main b).1 : ℤ) * (((main b).1 : ℤ) - 1) := by
  have hinv := inv_pellState (firstIdx b)
  have hid := blue_identity (pellState (firstIdx b)) hinv
  have hx1 := blueX_pos _ hinv
  have hge := pellState_ge (firstIdx b)
  have hn4 := candN_ge_four (pellState (firstIdx b)) hge.1 (by omega)
  have h1n : 1 ≤ candN (pellState (firstIdx b)) := by omega
  zify [hx1, h1n] at hid
  exact hid

/-! ## The claims -/

/-- C1 (code-bug evidence): the claim — every returned pair satisfies the
exact identity `2 * blue * (blue - 1) = total * (total - 1)` — is the source's
own documented contract, but the source's float extraction breaks it.  At
bound 1235216565974041 (= the 20th candidate total; any bound up to but
excluding the 21st behaves the same) the loop returns from state 20, whose
exact root `hypC` is 10181446324101389: an odd integer above `2^53`, hence
not representable as a double (doubles there are even), and `≡ 1 (mod 4)`,
so `math.sqrt` yields `hypC ∓ 1` and `int((1 + f) / 2)` lands at
`(hypC - 1) / 2` or `(hypC + 3) / 2` — both different from the exact blue
count `(1 + hypC) / 2` that the identity requires.  This theorem evaluates
the faithful integer part of the program at the failing input and records
the facts the divergence follows from. -/
theorem c1_float_divergence :
    main 1235216565974041 = (candN (pellState 20), (1 + hypC (pellState 20)) / 2) ∧
      candN (pellState 20) = 7199369738058940 ∧
      hypC (pellState 20) = 10181446324101389 ∧
      2 ^ 53 < hypC (pellState 20) ∧
      hypC (pellState 20) % 4 = 1 := by
  refine ⟨?_, by decide, by decide, by decide, by decide⟩
  exact main_val 1235216565974041 20 (by decide) (by decide)

/-- C2: for every positive bound `b`, the returned total strictly exceeds `b`
and is minimal: no total strictly between `b` and it has
`1 + 2 * total' * (total' - 1)` an odd perfect square. -/
theorem c2_minimality (b : ℕ) (hb : 1 ≤ b) :
    b < (main b).1 ∧
      ∀ m, b < m → m < (main b).1 →
        ¬ ∃ z, Odd z ∧ z * z = 1 + 2 * m * (m - 1) := by
  refine ⟨main_fst_gt b, ?_⟩
  rintro m h1 h2 ⟨z, _, hz⟩
  obtain ⟨j, hj⟩ := validTotal_mem m z (by omega) hz
  have hmain1 : (main b).1 = candN (pellState (firstIdx b)) := rfl
  rcases lt_or_ge j (firstIdx b) with hlt | hge
  · have := main_min b j hlt
    omega
  · have hmono : candN (pellState (firstIdx b)) ≤ candN (pellState j) :=
      candN_strictMono.monotone hge
    omega

theorem c2_minimality_witness :
    1 ≤ 1 ∧ (1 < (main 1).1 ∧
      ∀ m, 1 < m → m < (main 1).1 →
        ¬ ∃ z, Odd z ∧ z * z = 1 + 2 * m * (m - 1)) :=
  ⟨le_refl 1, c2_minimality 1 (le_refl 1)⟩

/-- C3: `main (10^12)` returns a total strictly greater than `10^12` whose
blue count satisfies the exact identity
`2 * blue * (blue - 1) = total * (total - 1)`, the float square root in
the extraction notwithstanding (modelled here as the exact integer square
root of the radicand, which is proved to be a perfect square). -/
theorem c3_canonical_target :
    10 ^ 12 < (main (10 ^ 12)).1 ∧
      2 * ((main (10 ^ 12)).2 : ℤ) * (((main (10 ^ 12)).2 : ℤ) - 1) =
        ((main (10 ^ 12)).1 : ℤ) * (((main (10 ^ 12)).1 : ℤ) - 1) :=
  ⟨main_fst_gt (10 ^ 12), main_identityZ (10 ^ 12)⟩

/-- C4 counterexample: `main 1` is `(4, 3)`, not `(21, 15)` as the claim
states for every positive bound below 21. -/
theorem c4_counterexample : main 1 ≠ (21, 15) := by
  rw [main_lt_four 1 (le_refl 1) (by omega)]
  decide

/-- C4 amended: `main b = (21, 15)` holds for bounds `4 ≤ b < 21` (not for
all positive `b < 21`); `main 21 = (120, 85)`; and for the remaining positive
bounds `b < 4` the result is the smaller valid arrangement `(4, 3)`. -/
theorem c4_amended (b : ℕ) (hb4 : 4 ≤ b) (hb21 : b < 21) :
    main b = (21, 15) ∧ main 21 = (120, 85) ∧
      ∀ b', 1 ≤ b' → b' < 4 → main b' = (4, 3) :=
  ⟨main_mid b hb4 hb21, main_at_21, fun b' h1 h4 => main_lt_four b' h1 h4⟩

theorem c4_amended_witness :
    (4 ≤ 20 ∧ 20 < 21) ∧ (main 20 = (21, 15) ∧ main 21 = (120, 85) ∧
      ∀ b', 1 ≤ b' → b' < 4 → main b' = (4, 3)) :=
  ⟨⟨by decide, by decide⟩, c4_amended 20 (by decide) (by decide)⟩

/-- C5 (code-bug evidence): the assert guard does reject exactly the
non-positive integers with no result produced (first conjunct), matching the
claim's `InvalidArgument` half; but the claim's "for positive integer inputs
no error is raised" fails in the source.  At the positive bound `10^200` the
guard passes and this integer model produces a result (second conjunct),
while the radicand `1 + 2*a*b` handed to `math.sqrt` at the returning
iteration exceeds `2^1024` (third conjunct), beyond the finite double range,
where CPython's `math.sqrt` raises `OverflowError` on the int-to-float
conversion instead of returning. -/
theorem c5_overflow_regime :
    (∀ z : ℤ, z ≤ 0 → mainChecked z = none) ∧
      (∃ p, mainChecked (10 ^ 200) = some p) ∧
      2 ^ 1024 <
        1 + 2 * legA (pellState (firstIdx (10 ^ 200))) *
          legB (pellState (firstIdx (10 ^ 200))) := by
  refine ⟨fun z hz => ?_, ?_, ?_⟩
  · unfold mainChecked
    rw [if_neg (by omega)]
  · refine ⟨main ((10 ^ 200 : ℤ)).toNat, ?_⟩
    unfold mainChecked
    rw [if_pos (by positivity)]
  · have hn := main_fst_gt (10 ^ 200)
    have hmain1 : (main (10 ^ 200)).1 = candN (pellState (firstIdx (10 ^ 200))) := rfl
    have hp := legs_prod (pellState (firstIdx (10 ^ 200)))
      (inv_pellState (firstIdx (10 ^ 200)))
    rw [Nat.mul_assoc, hp]
    rw [hmain1] at hn
    have hlow : (10 ^ 200 + 1) * (10 ^ 200) ≤
        candN (pellState (firstIdx (10 ^ 200))) *
          (candN (pellState (firstIdx (10 ^ 200))) - 1) :=
      Nat.mul_le_mul (by omega) (by omega)
    have hnum : (2 : ℕ) ^ 1024 < 1 + 2 * ((10 ^ 200 + 1) * 10 ^ 200) := by norm_num
    omega

/-- C6: the search loop terminates for every bound: the candidate total
strictly increases at each iteration, is unbounded, and the exit condition
`n > n_min` holds at the (finite) returning index `firstIdx b`. -/
theorem c6_termination (b : ℕ) :
    (∀ i, candN (pellState i) < candN (pellState (i + 1))) ∧
      (∃ i, b < candN (pellState i)) ∧
      b < candN (pellState (firstIdx b)) :=
  ⟨candN_step_lt, candN_unbounded b, Nat.find_spec (candN_unbounded b)⟩

/-- C7: every reachable Pell state satisfies `r^2 - 2 s^2 = ±1`; consequently
the derived legs differ by exactly 1 and their product is `n * (n - 1)` for
the candidate total `n = max a b`. -/
theorem c7_invariant (i : ℕ) :
    (((pellState i).1 : ℤ) ^ 2 - 2 * ((pellState i).2 : ℤ) ^ 2 = 1 ∨
        ((pellState i).1 : ℤ) ^ 2 - 2 * ((pellState i).2 : ℤ) ^ 2 = -1) ∧
      (legA (pellState i) = legB (pellState i) + 1 ∨
        legB (pellState i) = legA (pellState i) + 1) ∧
      legA (pellState i) * legB (pellState i) =
        candN (pellState i) * (candN (pellState i) - 1) := by
  have h := inv_pellState i
  refine ⟨?_, legs_diff _ h, legs_prod _ h⟩
  unfold Inv at h
  rcases h with h | h
  · left
    have hc := congrArg (Nat.cast (R := ℤ)) h
    push_cast at hc
    linear_combination hc
  · right
    have hc := congrArg (Nat.cast (R := ℤ)) h
    push_cast at hc
    linear_combination hc

/-- C9: the search is a pure, deterministic function of its bound: two calls
with equal bounds return identical results (the embedding reads no state
outside its argument). -/
theorem c9_deterministic (b₁ b₂ : ℕ) (h : b₁ = b₂) : main b₁ = main b₂ := by
  rw [h]

theorem c9_deterministic_witness : main 4 = main 4 :=
  c9_deterministic 4 4 rfl

/-- C10: the very first candidate generated from the seed `(1, 1)` is the
valid arrangement `(4, 3)`, so `main b = (4, 3)` for `b ∈ {1, 2, 3}`, and
every returned total is either 4 or at least 21. -/
theorem c10_first_candidate (b : ℕ) (_hb : 1 ≤ b) :
    main 1 = (4, 3) ∧ main 2 = (4, 3) ∧ main 3 = (4, 3) ∧
      ((main b).1 = 4 ∨ 21 ≤ (main b).1) := by
  refine ⟨main_lt_four 1 (by omega) (by omega),
    main_lt_four 2 (by omega) (by omega),
    main_lt_four 3 (by omega) (by omega), ?_⟩
  have hmain1 : (main b).1 = candN (pellState (firstIdx b)) := rfl
  rcases Nat.eq_zero_or_pos (firstIdx b) with h0 | hpos
  · left
    rw [hmain1, h0]
    decide
  · right
    have hmono : candN (pellState 1) ≤ candN (pellState (firstIdx b)) :=
      candN_strictMono.monotone hpos
    have h21 : candN (pellState 1) = 21 := by decide
    omega

theorem c10_first_candidate_witness :
    1 ≤ 30 ∧ (main 1 = (4, 3) ∧ main 2 = (4, 3) ∧ main 3 = (4, 3) ∧
      ((main 30).1 = 4 ∨ 21 ≤ (main 30).1)) :=
  ⟨by decide, c10_first_candidate 30 (by decide)⟩

end Euler100
